import Mathlib

/-!
Verification of the clean-cut quiet-interval segmentation engine.

Regions and intervals are `ℚ × ℚ` pairs `(start_ms, end_ms)` (or seconds for
the VAD cutter).  Loudness frames are `ℚ × ℚ` pairs `(timestamp_ms, level_db)`.
All definitions are translated from the Python sources in `src/python-backend`.
-/

namespace CleanCut

/-! ## Statistics helpers (numpy `mean` / population `std`)

`np.mean` of a rational list and `np.std(..., ddof=0)` squared (the population
variance).  The standard deviation itself is irrational in general; theorems
characterise it by `0 ≤ s ∧ s ^ 2 = qvariance l`. -/

def qmean (l : List ℚ) : ℚ := l.sum / l.length

def qvariance (l : List ℚ) : ℚ := qmean (l.map (fun x => (x - qmean l) ^ 2))

/-! ## `silence_detector_energy.py` — threshold resolver

`detect_quiet_regions_adaptive`, lines 66–80: with more than 20 samples the
dynamic threshold is `min(base, mean - 2.0 * std)` floored at `base - 15`;
otherwise the base threshold is used unchanged.  `s` stands for the computed
`np.std` value. -/

def dynamic_threshold (base mean s : ℚ) : ℚ :=
  max (min base (mean - 2 * s)) (base - 15)

def resolve_threshold (dbs : List ℚ) (base s : ℚ) : ℚ :=
  if 20 < dbs.length then dynamic_threshold base (qmean dbs) s else base

/-- Modelled from the spec: `effective = clamp(min(base, mean − k·std), base − margin, base)`
with `clamp(x, lo, hi) = max(lo, min(x, hi))`. -/
def clampQ (lo hi x : ℚ) : ℚ := max lo (min x hi)

/-! ## `silence_detector_energy.py` — region scan

`detect_quiet_regions_adaptive`, lines 82–108.  The scan keeps the start of
the currently tracked quiet run in `cs`; a region is emitted when a loud frame
closes a run of duration at least `m` (the minimum region duration in ms).
`frame_duration_ms` is the hard-coded `200 * 0.5 = 100`. -/

def detectScan (thr m : ℚ) : List (ℚ × ℚ) → Option ℚ → List (ℚ × ℚ) × Option ℚ
  | [], cs => ([], cs)
  | (t, db) :: rest, cs =>
    if db < thr then
      match cs with
      | none => detectScan thr m rest (some t)
      | some s => detectScan thr m rest (some s)
    else
      match cs with
      | none => detectScan thr m rest none
      | some s =>
        let res := detectScan thr m rest none
        (if m ≤ t - s then (s, t) :: res.1 else res.1, res.2)

def detect_quiet_regions (levels : List (ℚ × ℚ)) (thr m : ℚ) : List (ℚ × ℚ) :=
  let res := detectScan thr m levels none
  match res.2, levels.getLast? with
  | some s, some last =>
    if m ≤ last.1 + 100 - s then res.1 ++ [(s, last.1 + 100)] else res.1
  | _, _ => res.1

/-! ## `silence_detector_energy.py` — merge pass

`merge_nearby_regions`, lines 111–129: scan left to right, folding region
`(start, end)` into the running region when `start - last_end ≤ merge_gap_ms`;
the merged region keeps the running start and takes the incoming `end`. -/

def mergeAux (tol : ℚ) : ℚ × ℚ → List (ℚ × ℚ) → List (ℚ × ℚ)
  | acc, [] => [acc]
  | acc, r :: rs =>
    if r.1 - acc.2 ≤ tol then mergeAux tol (acc.1, r.2) rs
    else acc :: mergeAux tol r rs

def merge_nearby_regions (tol : ℚ) : List (ℚ × ℚ) → List (ℚ × ℚ)
  | [] => []
  | r :: rs => mergeAux tol r rs

/-- Modelled from the spec: "sort surviving regions by start ascending; scan
left to right, merging region `i+1` into the running region if
`region[i+1].start − running.end ≤ merge_gap_tolerance_ms`; merged region's
end is `max` of both ends." -/
def mergeMaxAux (tol : ℚ) : ℚ × ℚ → List (ℚ × ℚ) → List (ℚ × ℚ)
  | acc, [] => [acc]
  | acc, r :: rs =>
    if r.1 - acc.2 ≤ tol then mergeMaxAux tol (acc.1, max acc.2 r.2) rs
    else acc :: mergeMaxAux tol r rs

/-- Modelled from the spec (see `mergeMaxAux`). -/
def merge_pass_spec (tol : ℚ) (l : List (ℚ × ℚ)) : List (ℚ × ℚ) :=
  match l.insertionSort (fun a b => a.1 ≤ b.1) with
  | [] => []
  | r :: rs => mergeMaxAux tol r rs

/-! ## `silence_detector_energy.py` — finalisation (`main`, lines 152–178)

Filter of regions shorter than 500 ms after merging, then expand-padding
clamped to `[0, audio_duration_ms]`, keeping a region only when
`padded_end > padded_start`.  The padding loop is the same code as
`apply_padding_to_regions` lines 152–159 in `silence_detector.py` and `main`
lines 142–148 in `silence_detector_vad.py`. -/

def filter_short (d : ℚ) (l : List (ℚ × ℚ)) : List (ℚ × ℚ) :=
  l.filter (fun r => d ≤ r.2 - r.1)

def pad_one (pad dur : ℚ) (r : ℚ × ℚ) : ℚ × ℚ :=
  (max 0 (r.1 - pad), min dur (r.2 + pad))

def pad_regions (pad dur : ℚ) : List (ℚ × ℚ) → List (ℚ × ℚ)
  | [] => []
  | r :: rest =>
    if (pad_one pad dur r).1 < (pad_one pad dur r).2 then
      pad_one pad dur r :: pad_regions pad dur rest
    else pad_regions pad dur rest

def energy_prepad (levels : List (ℚ × ℚ)) (thr minLen : ℚ) : List (ℚ × ℚ) :=
  filter_short 500 (merge_nearby_regions 2000 (detect_quiet_regions levels thr (max minLen 1000)))

def energy_main (levels : List (ℚ × ℚ)) (thr minLen pad dur : ℚ) : List (ℚ × ℚ) :=
  pad_regions pad dur (energy_prepad levels thr minLen)

/-- One full run of `silence_detector_energy.main` from a loudness profile:
the threshold is resolved adaptively (`s` is the population standard deviation
of the profile levels, characterised by its square) and the detection,
merging, 500 ms filter and expand-padding stages are applied. -/
def EnergyAdaptiveRun (levels : List (ℚ × ℚ)) (base minLen pad dur : ℚ)
    (out : List (ℚ × ℚ)) : Prop :=
  ∃ s : ℚ, 0 ≤ s ∧ s ^ 2 = qvariance (levels.map Prod.snd) ∧
    out = energy_main levels (resolve_threshold (levels.map Prod.snd) base s) minLen pad dur

/-! ## `silence_detector.py` — padding and merge finaliser

`apply_padding_to_regions`, lines 136–179: expand-padding clamped to
`[0, audio_duration_ms]` (the shared `pad_regions` loop above), then — when
`merge_nearby` is set and at least two regions survive — Python's tuple sort
(lexicographic on `(start, end)`, modelled by `insertionSort` on `lexLE`)
followed by a left-to-right scan that merges a region into the running one
when `current_start ≤ last_end + 100`, taking the `max` of both ends. -/

def lexLE (a b : ℚ × ℚ) : Prop := a.1 < b.1 ∨ (a.1 = b.1 ∧ a.2 ≤ b.2)

instance : DecidableRel lexLE := fun a b =>
  inferInstanceAs (Decidable (a.1 < b.1 ∨ (a.1 = b.1 ∧ a.2 ≤ b.2)))

instance : IsTotal (ℚ × ℚ) lexLE where
  total a b := by
    unfold lexLE
    rcases lt_trichotomy a.1 b.1 with h | h | h
    · exact Or.inl (Or.inl h)
    · rcases le_total a.2 b.2 with h2 | h2
      · exact Or.inl (Or.inr ⟨h, h2⟩)
      · exact Or.inr (Or.inr ⟨h.symm, h2⟩)
    · exact Or.inr (Or.inl h)

instance : IsTrans (ℚ × ℚ) lexLE where
  trans a b c hab hbc := by
    unfold lexLE at hab hbc ⊢
    rcases hab with h1 | ⟨h1, h1'⟩ <;> rcases hbc with h2 | ⟨h2, h2'⟩
    · exact Or.inl (h1.trans h2)
    · exact Or.inl (lt_of_lt_of_le h1 (le_of_eq h2))
    · exact Or.inl (lt_of_le_of_lt (le_of_eq h1) h2)
    · exact Or.inr ⟨h1.trans h2, h1'.trans h2'⟩

def merge_close : ℚ × ℚ → List (ℚ × ℚ) → List (ℚ × ℚ)
  | acc, [] => [acc]
  | acc, r :: rs =>
    if r.1 ≤ acc.2 + 100 then merge_close (acc.1, max acc.2 r.2) rs
    else acc :: merge_close r rs

def apply_padding_to_regions (regions : List (ℚ × ℚ)) (pad dur : ℚ)
    (mergeNearby : Bool) : List (ℚ × ℚ) :=
  match regions with
  | [] => []
  | _ :: _ =>
    let padded := pad_regions pad dur regions
    if mergeNearby = false ∨ padded.length ≤ 1 then padded
    else
      match padded.insertionSort lexLE with
      | [] => []
      | p :: ps => merge_close p ps

/-! ## `silence_detector.py` / `silence_detector_vad.py` — minimum frame count

`silence_detector.main` line 210 and `find_non_speech_regions` line 82:
`max(1, int(min_ms / frame_ms))`.  Python's `int()` on a nonnegative float
truncates, which on natural inputs is `Nat` division. -/

def min_region_frames (minMs frameMs : ℕ) : ℕ := max 1 (minMs / frameMs)

/-- Modelled from the spec: `max(1, round(min_region_duration_ms / frame_duration_ms))`. -/
def min_region_frames_spec (minMs frameMs : ℕ) : ℤ :=
  max 1 (round ((minMs : ℚ) / (frameMs : ℚ)))

/-! ## `silence_detector.py` — frame grouping state machine

`group_quiet_regions`, lines 58–133.  The tracked state is the start
timestamp of the current candidate region together with the per-frame
quietness booleans accumulated for the purity check.  `frame_duration` is the
hard-coded 20 ms of line 78. -/

structure GState where
  cur : Option (ℚ × List Bool)
  out : List (ℚ × ℚ)

def group_step (thr : ℚ) (minF : ℕ) (pur : ℚ) (st : GState) (f : ℚ × ℚ) : GState :=
  let q := decide (f.2 < thr)
  match st.cur with
  | none => if q then ⟨some (f.1, [q]), st.out⟩ else ⟨none, st.out⟩
  | some (s, frames) =>
    let frames' := frames ++ [q]
    if ¬q ∧ minF ≤ frames'.length then
      let pct : ℚ := (frames'.count true : ℚ) / (frames'.length : ℚ)
      ⟨none, if pur ≤ pct then st.out ++ [(s, f.1)] else st.out⟩
    else if 3 * minF < frames'.length then
      let pct : ℚ := (frames'.count true : ℚ) / (frames'.length : ℚ)
      ⟨none, if pur ≤ pct then st.out ++ [(s, f.1)] else st.out⟩
    else ⟨some (s, frames'), st.out⟩

def group_finish (minF : ℕ) (pur : ℚ) (st : GState) (lf? : Option (ℚ × ℚ)) :
    List (ℚ × ℚ) :=
  match st.cur, lf? with
  | some (s, bs), some lf =>
    if minF ≤ bs.length ∧ pur ≤ (bs.count true : ℚ) / (bs.length : ℚ) then
      st.out ++ [(s, lf.1 + 20)]
    else st.out
  | _, _ => st.out

def group_quiet_regions (fs : List (ℚ × ℚ)) (thr : ℚ) (minF : ℕ) (pur : ℚ) :
    List (ℚ × ℚ) :=
  group_finish minF pur (fs.foldl (group_step thr minF pur) ⟨none, []⟩) fs.getLast?

/-! ## Loudness profiler (`audio_analyzer.py` / `silence_detector.py`)

Per-window level computation.  `downmix_stereo` is the
`reshape((-1, 2)).mean(axis=1)` down-mix; `rmsSq` is `np.mean(frame ** 2)`
computed exactly (the `float64` cast makes the Python computation exact for
integer samples of moderate magnitude); the emitted level is
`20 * log10(rms / max_val)` with the sentinel −80 when `rms` is not positive. -/

def downmix_stereo : List ℚ → List ℚ
  | a :: b :: rest => (a + b) / 2 :: downmix_stereo rest
  | _ => []

def mono (channels : ℕ) (arr : List ℚ) : List ℚ :=
  if channels = 2 then downmix_stereo arr else arr

def rmsSq (frame : List ℚ) : ℚ := (frame.map (fun x => x ^ 2)).sum / frame.length

/-- Bit-depth table of `silence_detector.analyze_audio_levels`, lines 38–46:
8-bit → 128, 16-bit → 32768, 32-bit → 2147483648, default 32768
(`sample_width` counts bytes). -/
def sd_max_val (width : ℕ) : ℕ :=
  if width = 1 then 128 else if width = 2 then 32768
  else if width = 4 then 2147483648 else 32768

/-- Bit-depth expression of `audio_analyzer.analyze_audio_levels` line 39 and
`silence_detector_energy.calculate_energy_levels` line 31:
`32768 if sample_width == 2 else 128`. -/
def aa_max_val (width : ℕ) : ℕ := if width = 2 then 32768 else 128

noncomputable def sd_frame_level (width : ℕ) (frame : List ℚ) : ℝ :=
  if 0 < Real.sqrt (rmsSq frame : ℝ) then
    20 * Real.logb 10 (Real.sqrt (rmsSq frame : ℝ) / (sd_max_val width : ℝ))
  else -80

/-- Profiler loop of `silence_detector.analyze_audio_levels`, lines 19–55:
non-overlapping windows of `fsSamples` samples over the down-mixed array (the
final window is truncated; empty windows are skipped), each mapped to a
timestamp and a level. -/
noncomputable def sd_analyze (width channels : ℕ) (rate : ℚ) (arr : List ℚ)
    (fsSamples : ℕ) : List (ℚ × ℝ) :=
  let m := mono channels arr
  ((List.range' 0 ((m.length + fsSamples - 1) / fsSamples) fsSamples).map
      (fun i => (i, (m.drop i).take fsSamples))).filter (fun p => ¬p.2.isEmpty)
    |>.map (fun p => (((p.1 : ℚ) / rate) * 1000, sd_frame_level width p.2))

/-! ## `vad_cutter.py` — speech inversion (lines 56–81)

Candidate silence regions: the gap before the first speech interval when its
start exceeds 0.1 s, each inter-speech gap longer than 0.1 s, and the gap
after the last speech interval when its end is below `total − 0.1`.
Units are seconds here, matching the source. -/

def between_gaps : List (ℚ × ℚ) → List (ℚ × ℚ)
  | a :: b :: rest =>
    (if 1/10 < b.1 - a.2 then [(a.2, b.1)] else []) ++ between_gaps (b :: rest)
  | _ => []

def cut_silence_regions (speech : List (ℚ × ℚ)) (total : ℚ) : List (ℚ × ℚ) :=
  match speech with
  | [] => []
  | s0 :: rest =>
    (if 1/10 < s0.1 then [((0 : ℚ), s0.1)] else [])
      ++ between_gaps (s0 :: rest)
      ++ (if ((s0 :: rest).getLastD s0).2 < total - 1/10 then
            [(((s0 :: rest).getLastD s0).2, total)] else [])

/-- Consecutive complement gaps of a speech-interval list. -/
def consecutive_gaps : List (ℚ × ℚ) → List (ℚ × ℚ)
  | a :: b :: rest => (a.2, b.1) :: consecutive_gaps (b :: rest)
  | _ => []

/-- Modelled from the spec: "the complement of the speech intervals over
`[0, duration_s]`: the gap before the first speech interval (if `> 100 ms`),
gaps between consecutive speech intervals (if `> 100 ms`), and the gap after
the last speech interval (if `> 100 ms`)". -/
def complement_gaps (speech : List (ℚ × ℚ)) (total : ℚ) : List (ℚ × ℚ) :=
  match speech with
  | [] => []
  | s0 :: rest =>
    (((0 : ℚ), s0.1) :: consecutive_gaps (s0 :: rest)
        ++ [(((s0 :: rest).getLastD s0).2, total)]).filter
      (fun g => 1/10 < g.2 - g.1)

/-! ## Concrete profile used to exercise the adaptive energy pipeline

52 frames, 100 ms apart: 10 quiet frames, 25 loud, 16 quiet, 1 loud.  Half
the levels are −60 dB and half 0 dB, so the profile mean is −30 dB and the
population standard deviation is exactly 30 dB. -/

def c1Levels : List (ℚ × ℚ) :=
  (List.range 52).map (fun i =>
    ((100 * i : ℚ), if i < 10 then (-60 : ℚ) else if i < 35 then 0
      else if i < 51 then -60 else 0))

/-- Twelve frames 100 ms apart: eleven quiet frames followed by one loud
frame, giving a single detected region `(0, 1100)`. -/
def shortLevels : List (ℚ × ℚ) :=
  [(0, -60), (100, -60), (200, -60), (300, -60), (400, -60), (500, -60),
   (600, -60), (700, -60), (800, -60), (900, -60), (1000, -60), (1100, 0)]

/-! ## Helper lemmas -/

lemma rmsSq_nonneg (frame : List ℚ) : 0 ≤ rmsSq frame := by
  apply div_nonneg
  · apply List.sum_nonneg
    intro x hx
    obtain ⟨y, _, rfl⟩ := List.mem_map.mp hx
    positivity
  · exact_mod_cast Nat.zero_le _

lemma mem_pad_regions {pad dur : ℚ} {l : List (ℚ × ℚ)} {r' : ℚ × ℚ} :
    r' ∈ pad_regions pad dur l ↔
      ∃ r ∈ l, r' = pad_one pad dur r ∧ (pad_one pad dur r).1 < (pad_one pad dur r).2 := by
  induction l with
  | nil => simp [pad_regions]
  | cons a t ih =>
    simp only [pad_regions]
    split_ifs with h
    · constructor
      · intro hr
        rcases List.mem_cons.mp hr with rfl | hr'
        · exact ⟨a, List.mem_cons_self a t, rfl, h⟩
        · obtain ⟨r, hrt, h1, h2⟩ := ih.mp hr'
          exact ⟨r, List.mem_cons_of_mem a hrt, h1, h2⟩
      · rintro ⟨r, hr, h1, h2⟩
        rcases List.mem_cons.mp hr with rfl | hrt
        · exact h1 ▸ List.mem_cons_self _ _
        · exact List.mem_cons_of_mem _ (ih.mpr ⟨r, hrt, h1, h2⟩)
    · constructor
      · intro hr
        obtain ⟨r, hrt, h1, h2⟩ := ih.mp hr
        exact ⟨r, List.mem_cons_of_mem a hrt, h1, h2⟩
      · rintro ⟨r, hr, h1, h2⟩
        rcases List.mem_cons.mp hr with rfl | hrt
        · exact absurd h2 h
        · exact ih.mpr ⟨r, hrt, h1, h2⟩

lemma mergeAux_eq_max (tol : ℚ) :
    ∀ (rest : List (ℚ × ℚ)) (acc : ℚ × ℚ),
      (∀ r ∈ rest, acc.1 ≤ r.1 ∧ acc.2 ≤ r.2) →
      List.Pairwise (fun a b => a.1 ≤ b.1 ∧ a.2 ≤ b.2) rest →
      mergeAux tol acc rest = mergeMaxAux tol acc rest
  | [], _, _, _ => rfl
  | r :: rs, acc, hconn, hp => by
    obtain ⟨hr, hp'⟩ := List.pairwise_cons.mp hp
    have hac := hconn r (List.mem_cons_self r rs)
    simp only [mergeAux, mergeMaxAux]
    split_ifs with h
    · rw [max_eq_right hac.2]
      exact mergeAux_eq_max tol rs (acc.1, r.2)
        (fun p hp2 => ⟨le_trans hac.1 (hr p hp2).1, (hr p hp2).2⟩) hp'
    · rw [mergeAux_eq_max tol rs r (fun p hp2 => hr p hp2) hp']

lemma mergeAux_head (tol : ℚ) :
    ∀ (rest : List (ℚ × ℚ)) (acc : ℚ × ℚ),
      ∃ e rs', mergeAux tol acc rest = (acc.1, e) :: rs'
  | [], acc => ⟨acc.2, [], rfl⟩
  | r :: rs, acc => by
    simp only [mergeAux]
    split_ifs with h
    · exact mergeAux_head tol rs (acc.1, r.2)
    · exact ⟨acc.2, mergeAux tol r rs, rfl⟩

lemma mergeAux_chain (tol : ℚ) :
    ∀ (rest : List (ℚ × ℚ)) (acc : ℚ × ℚ),
      List.Chain' (fun a b => tol < b.1 - a.2) (mergeAux tol acc rest)
  | [], acc => List.chain'_singleton acc
  | r :: rs, acc => by
    simp only [mergeAux]
    split_ifs with h
    · exact mergeAux_chain tol rs (acc.1, r.2)
    · obtain ⟨e, rs', heq⟩ := mergeAux_head tol rs r
      have hch := mergeAux_chain tol rs r
      rw [heq] at hch ⊢
      exact List.Chain'.cons (by simpa using not_le.mp h) hch

lemma merge_of_chain (tol : ℚ) (l : List (ℚ × ℚ))
    (h : List.Chain' (fun a b => tol < b.1 - a.2) l) :
    merge_nearby_regions tol l = l := by
  cases l with
  | nil => rfl
  | cons a rest =>
    show mergeAux tol a rest = a :: rest
    induction rest generalizing a with
    | nil => rfl
    | cons r rs ih =>
      obtain ⟨hr, hch⟩ := List.chain'_cons.mp h
      rw [mergeAux, if_neg (not_le.mpr hr)]
      rw [ih r hch]

lemma between_gaps_eq : ∀ l : List (ℚ × ℚ),
    between_gaps l = (consecutive_gaps l).filter (fun g => 1/10 < g.2 - g.1)
  | [] => rfl
  | [_] => rfl
  | a :: b :: rest => by
    rw [between_gaps, consecutive_gaps, List.filter_cons, between_gaps_eq (b :: rest)]
    simp only [decide_eq_true_eq]
    by_cases h : (1 : ℚ)/10 < b.1 - a.2
    · rw [if_pos h, if_pos h]
      rfl
    · rw [if_neg h, if_neg h]
      rfl

lemma group_step_sim (thr : ℚ) (minF : ℕ) {t1 t2 : ℚ} (h12 : t1 ≤ t2)
    (st1 st2 : GState) (f : ℚ × ℚ) (hc : st1.cur = st2.cur)
    (ho : st2.out.length ≤ st1.out.length) :
    (group_step thr minF t1 st1 f).cur = (group_step thr minF t2 st2 f).cur ∧
    (group_step thr minF t2 st2 f).out.length ≤
      (group_step thr minF t1 st1 f).out.length := by
  unfold group_step
  rw [hc]
  cases hcur : st2.cur with
  | none =>
    by_cases hq : decide (f.2 < thr) = true <;> simp [hq, ho]
  | some p =>
    obtain ⟨s, frames⟩ := p
    simp only
    set bs := frames ++ [decide (f.2 < thr)] with hbs
    set pct : ℚ := (bs.count true : ℚ) / (bs.length : ℚ) with hpct
    by_cases hcl : ¬decide (f.2 < thr) = true ∧ minF ≤ bs.length
    · rw [if_pos hcl, if_pos hcl]
      by_cases h2 : t2 ≤ pct
      · rw [if_pos h2, if_pos (le_trans h12 h2)]
        exact ⟨rfl, by simpa using ho⟩
      · rw [if_neg h2]
        by_cases h1 : t1 ≤ pct
        · rw [if_pos h1]
          exact ⟨rfl, le_trans ho (by simp)⟩
        · rw [if_neg h1]
          exact ⟨rfl, ho⟩
    · rw [if_neg hcl, if_neg hcl]
      by_cases hfc : 3 * minF < bs.length
      · rw [if_pos hfc, if_pos hfc]
        by_cases h2 : t2 ≤ pct
        · rw [if_pos h2, if_pos (le_trans h12 h2)]
          exact ⟨rfl, by simpa using ho⟩
        · rw [if_neg h2]
          by_cases h1 : t1 ≤ pct
          · rw [if_pos h1]
            exact ⟨rfl, le_trans ho (by simp)⟩
          · rw [if_neg h1]
            exact ⟨rfl, ho⟩
      · rw [if_neg hfc, if_neg hfc]
        exact ⟨rfl, ho⟩

lemma group_finish_sim (minF : ℕ) {t1 t2 : ℚ} (h12 : t1 ≤ t2) (st1 st2 : GState)
    (lf? : Option (ℚ × ℚ)) (hc : st1.cur = st2.cur)
    (ho : st2.out.length ≤ st1.out.length) :
    (group_finish minF t2 st2 lf?).length ≤ (group_finish minF t1 st1 lf?).length := by
  unfold group_finish
  rw [hc]
  cases st2.cur with
  | none => cases lf? <;> exact ho
  | some p =>
    obtain ⟨s, bs⟩ := p
    cases lf? with
    | none => exact ho
    | some lf =>
      dsimp only
      by_cases h2 : minF ≤ bs.length ∧ t2 ≤ (bs.count true : ℚ) / (bs.length : ℚ)
      · rw [if_pos h2, if_pos ⟨h2.1, le_trans h12 h2.2⟩]
        simpa using ho
      · rw [if_neg h2]
        by_cases h1 : minF ≤ bs.length ∧ t1 ≤ (bs.count true : ℚ) / (bs.length : ℚ)
        · rw [if_pos h1]
          exact le_trans ho (by simp)
        · rw [if_neg h1]
          exact ho

lemma group_foldl_sim (thr : ℚ) (minF : ℕ) {t1 t2 : ℚ} (h12 : t1 ≤ t2) :
    ∀ (fs : List (ℚ × ℚ)) (st1 st2 : GState),
      st1.cur = st2.cur → st2.out.length ≤ st1.out.length →
      (fs.foldl (group_step thr minF t1) st1).cur =
        (fs.foldl (group_step thr minF t2) st2).cur ∧
      (fs.foldl (group_step thr minF t2) st2).out.length ≤
        (fs.foldl (group_step thr minF t1) st1).out.length
  | [], _, _, hc, ho => ⟨hc, ho⟩
  | f :: fs, st1, st2, hc, ho => by
    obtain ⟨hc', ho'⟩ := group_step_sim thr minF h12 st1 st2 f hc ho
    exact group_foldl_sim thr minF h12 fs _ _ hc' ho'

lemma detectScan_inv (thr m : ℚ) :
    ∀ (levels : List (ℚ × ℚ)) (cs : Option ℚ),
      List.Pairwise (fun a b : ℚ × ℚ => a.1 < b.1) levels →
      (∀ r ∈ (detectScan thr m levels cs).1,
          m ≤ r.2 - r.1 ∧
          ((∃ p ∈ levels, r.1 = p.1) ∨ cs = some r.1) ∧
          (∃ p ∈ levels, r.2 = p.1)) ∧
      List.Pairwise (fun a b : ℚ × ℚ => a.2 ≤ b.1) (detectScan thr m levels cs).1 ∧
      (∀ s', (detectScan thr m levels cs).2 = some s' →
          ((∃ p ∈ levels, s' = p.1) ∨ cs = some s') ∧
          ∀ r ∈ (detectScan thr m levels cs).1, r.2 ≤ s')
  | [], cs, _ => by
    refine ⟨by simp [detectScan], by simp [detectScan], ?_⟩
    intro s' hs'
    simp only [detectScan] at hs'
    exact ⟨Or.inr hs', by simp [detectScan]⟩
  | (t, db) :: rest, cs, hlv => by
    obtain ⟨hhead, htail⟩ := List.pairwise_cons.mp hlv
    by_cases hq : db < thr
    · -- quiet frame
      cases cs with
      | none =>
        obtain ⟨ih1, ih2, ih3⟩ := detectScan_inv thr m rest (some t) htail
        rw [show detectScan thr m ((t, db) :: rest) none = detectScan thr m rest (some t) from by
          simp [detectScan, hq]]
        refine ⟨?_, ih2, ?_⟩
        · intro r hr
          obtain ⟨hd, ho, he⟩ := ih1 r hr
          refine ⟨hd, ?_, ?_⟩
          · rcases ho with ⟨p, hp, hpe⟩ | hcs
            · exact Or.inl ⟨p, List.mem_cons_of_mem _ hp, hpe⟩
            · exact Or.inl ⟨(t, db), List.mem_cons_self _ _, (Option.some_inj.mp hcs).symm⟩
          · obtain ⟨p, hp, hpe⟩ := he
            exact ⟨p, List.mem_cons_of_mem _ hp, hpe⟩
        · intro s' hs'
          obtain ⟨ho, hb⟩ := ih3 s' hs'
          refine ⟨?_, hb⟩
          rcases ho with ⟨p, hp, hpe⟩ | hcs
          · exact Or.inl ⟨p, List.mem_cons_of_mem _ hp, hpe⟩
          · exact Or.inl ⟨(t, db), List.mem_cons_self _ _, (Option.some_inj.mp hcs).symm⟩
      | some s =>
        obtain ⟨ih1, ih2, ih3⟩ := detectScan_inv thr m rest (some s) htail
        rw [show detectScan thr m ((t, db) :: rest) (some s) = detectScan thr m rest (some s) from by
          simp [detectScan, hq]]
        refine ⟨?_, ih2, ?_⟩
        · intro r hr
          obtain ⟨hd, ho, he⟩ := ih1 r hr
          refine ⟨hd, ?_, ?_⟩
          · rcases ho with ⟨p, hp, hpe⟩ | hcs
            · exact Or.inl ⟨p, List.mem_cons_of_mem _ hp, hpe⟩
            · exact Or.inr hcs
          · obtain ⟨p, hp, hpe⟩ := he
            exact ⟨p, List.mem_cons_of_mem _ hp, hpe⟩
        · intro s' hs'
          obtain ⟨ho, hb⟩ := ih3 s' hs'
          refine ⟨?_, hb⟩
          rcases ho with ⟨p, hp, hpe⟩ | hcs
          · exact Or.inl ⟨p, List.mem_cons_of_mem _ hp, hpe⟩
          · exact Or.inr hcs
    · -- loud frame
      cases cs with
      | none =>
        obtain ⟨ih1, ih2, ih3⟩ := detectScan_inv thr m rest none htail
        rw [show detectScan thr m ((t, db) :: rest) none = detectScan thr m rest none from by
          simp [detectScan, hq]]
        refine ⟨?_, ih2, ?_⟩
        · intro r hr
          obtain ⟨hd, ho, he⟩ := ih1 r hr
          refine ⟨hd, ?_, ?_⟩
          · rcases ho with ⟨p, hp, hpe⟩ | hcs
            · exact Or.inl ⟨p, List.mem_cons_of_mem _ hp, hpe⟩
            · exact Option.noConfusion hcs
          · obtain ⟨p, hp, hpe⟩ := he
            exact ⟨p, List.mem_cons_of_mem _ hp, hpe⟩
        · intro s' hs'
          obtain ⟨ho, hb⟩ := ih3 s' hs'
          refine ⟨?_, hb⟩
          rcases ho with ⟨p, hp, hpe⟩ | hcs
          · exact Or.inl ⟨p, List.mem_cons_of_mem _ hp, hpe⟩
          · exact Option.noConfusion hcs
      | some s =>
        obtain ⟨ih1, ih2, ih3⟩ := detectScan_inv thr m rest none htail
        have heq : detectScan thr m ((t, db) :: rest) (some s) =
            (if m ≤ t - s then (s, t) :: (detectScan thr m rest none).1
              else (detectScan thr m rest none).1, (detectScan thr m rest none).2) := by
          simp [detectScan, hq]
        rw [heq]
        have hmem1 : ∀ r ∈ (detectScan thr m rest none).1,
            m ≤ r.2 - r.1 ∧
            ((∃ p ∈ (t, db) :: rest, r.1 = p.1) ∨ some s = some r.1) ∧
            (∃ p ∈ (t, db) :: rest, r.2 = p.1) := by
          intro r hr
          obtain ⟨hd, ho, he⟩ := ih1 r hr
          refine ⟨hd, ?_, ?_⟩
          · rcases ho with ⟨p, hp, hpe⟩ | hcs
            · exact Or.inl ⟨p, List.mem_cons_of_mem _ hp, hpe⟩
            · exact Option.noConfusion hcs
          · obtain ⟨p, hp, hpe⟩ := he
            exact ⟨p, List.mem_cons_of_mem _ hp, hpe⟩
        have hstart : ∀ r ∈ (detectScan thr m rest none).1, t ≤ r.1 := by
          intro r hr
          obtain ⟨_, ho, _⟩ := ih1 r hr
          rcases ho with ⟨p, hp, hpe⟩ | hcs
          · exact hpe ▸ le_of_lt (hhead p hp)
          · exact Option.noConfusion hcs
        by_cases hemit : m ≤ t - s
        · rw [if_pos hemit]
          refine ⟨?_, ?_, ?_⟩
          · intro r hr
            rcases List.mem_cons.mp hr with rfl | hr'
            · exact ⟨hemit, Or.inr rfl, ⟨(t, db), List.mem_cons_self _ _, rfl⟩⟩
            · exact hmem1 r hr'
          · exact List.pairwise_cons.mpr ⟨hstart, ih2⟩
          · intro s' hs'
            simp only at hs'
            obtain ⟨ho, hb⟩ := ih3 s' hs'
            have hts' : t ≤ s' := by
              rcases ho with ⟨p, hp, hpe⟩ | hcs
              · exact hpe ▸ le_of_lt (hhead p hp)
              · exact Option.noConfusion hcs
            refine ⟨?_, ?_⟩
            · rcases ho with ⟨p, hp, hpe⟩ | hcs
              · exact Or.inl ⟨p, List.mem_cons_of_mem _ hp, hpe⟩
              · exact Option.noConfusion hcs
            · intro r hr
              rcases List.mem_cons.mp hr with rfl | hr'
              · exact hts'
              · exact hb r hr'
        · rw [if_neg hemit]
          refine ⟨hmem1, ih2, ?_⟩
          intro s' hs'
          simp only at hs'
          obtain ⟨ho, hb⟩ := ih3 s' hs'
          refine ⟨?_, hb⟩
          rcases ho with ⟨p, hp, hpe⟩ | hcs
          · exact Or.inl ⟨p, List.mem_cons_of_mem _ hp, hpe⟩
          · exact Option.noConfusion hcs

lemma detect_quiet_regions_spec (levels : List (ℚ × ℚ)) (thr m : ℚ)
    (hlv : List.Pairwise (fun a b : ℚ × ℚ => a.1 < b.1) levels) :
    (∀ r ∈ detect_quiet_regions levels thr m, m ≤ r.2 - r.1) ∧
    List.Pairwise (fun a b : ℚ × ℚ => a.2 ≤ b.1) (detect_quiet_regions levels thr m) := by
  obtain ⟨h1, h2, h3⟩ := detectScan_inv thr m levels none hlv
  simp only [detect_quiet_regions]
  cases hfin : (detectScan thr m levels none).2 with
  | none =>
    cases hlast : levels.getLast? <;> exact ⟨fun r hr => (h1 r hr).1, h2⟩
  | some s' =>
    cases hlast : levels.getLast? with
    | none => exact ⟨fun r hr => (h1 r hr).1, h2⟩
    | some last =>
      obtain ⟨ho, hb⟩ := h3 s' hfin
      dsimp only
      by_cases hg : m ≤ last.1 + 100 - s'
      · rw [if_pos hg]
        constructor
        · intro r hr
          rcases List.mem_append.mp hr with hr' | hr'
          · exact (h1 r hr').1
          · rw [List.mem_singleton.mp hr']
            exact hg
        · rw [List.pairwise_append]
          refine ⟨h2, by simp, ?_⟩
          intro r hr x hx
          rw [List.mem_singleton.mp hx]
          exact hb r hr
      · rw [if_neg hg]
        exact ⟨fun r hr => (h1 r hr).1, h2⟩

lemma mergeAux_inv (tol m : ℚ) (hm : 0 ≤ m) :
    ∀ (rest : List (ℚ × ℚ)) (acc : ℚ × ℚ),
      m ≤ acc.2 - acc.1 →
      (∀ r ∈ rest, m ≤ r.2 - r.1) →
      List.Pairwise (fun a b : ℚ × ℚ => a.2 ≤ b.1) rest →
      (∀ r ∈ rest, acc.2 ≤ r.1) →
      (∀ r ∈ mergeAux tol acc rest, m ≤ r.2 - r.1) ∧
      List.Pairwise (fun a b : ℚ × ℚ => a.2 + tol < b.1) (mergeAux tol acc rest) ∧
      (∀ r ∈ mergeAux tol acc rest, acc.1 ≤ r.1)
  | [], acc, hacc, _, _, _ => by
    refine ⟨?_, by simp [mergeAux], ?_⟩
    · intro r hr
      rw [show r = acc from by simpa [mergeAux] using hr]
      exact hacc
    · intro r hr
      rw [show r = acc from by simpa [mergeAux] using hr]
  | r :: rs, acc, hacc, hdur, hsort, hgap => by
    obtain ⟨hsh, hst⟩ := List.pairwise_cons.mp hsort
    have hr_dur := hdur r (List.mem_cons_self r rs)
    have hr_gap := hgap r (List.mem_cons_self r rs)
    have hacc_le : acc.1 ≤ acc.2 := by linarith
    rw [mergeAux]
    split_ifs with h
    · have hacc' : m ≤ ((acc.1, r.2) : ℚ × ℚ).2 - ((acc.1, r.2) : ℚ × ℚ).1 := by
        have h1 : acc.1 ≤ r.1 := le_trans hacc_le hr_gap
        simp only
        linarith
      obtain ⟨ih1, ih2, ih3⟩ := mergeAux_inv tol m hm rs (acc.1, r.2) hacc'
        (fun p hp => hdur p (List.mem_cons_of_mem _ hp)) hst (fun p hp => hsh p hp)
      exact ⟨ih1, ih2, ih3⟩
    · obtain ⟨ih1, ih2, ih3⟩ := mergeAux_inv tol m hm rs r hr_dur
        (fun p hp => hdur p (List.mem_cons_of_mem _ hp)) hst (fun p hp => hsh p hp)
      have hgap' : tol < r.1 - acc.2 := not_le.mp h
      refine ⟨?_, ?_, ?_⟩
      · intro x hx
        rcases List.mem_cons.mp hx with rfl | hx'
        · exact hacc
        · exact ih1 x hx'
      · refine List.pairwise_cons.mpr ⟨?_, ih2⟩
        intro x hx
        have hx1 := ih3 x hx
        linarith
      · intro x hx
        rcases List.mem_cons.mp hx with rfl | hx'
        · exact le_refl _
        · have hx1 := ih3 x hx'
          have h2 : acc.1 ≤ r.1 := le_trans hacc_le hr_gap
          linarith

lemma merge_nearby_spec (tol m : ℚ) (hm : 0 ≤ m) (l : List (ℚ × ℚ))
    (hdur : ∀ r ∈ l, m ≤ r.2 - r.1)
    (hsort : List.Pairwise (fun a b : ℚ × ℚ => a.2 ≤ b.1) l) :
    (∀ r ∈ merge_nearby_regions tol l, m ≤ r.2 - r.1) ∧
    List.Pairwise (fun a b : ℚ × ℚ => a.2 + tol < b.1) (merge_nearby_regions tol l) := by
  cases l with
  | nil => exact ⟨by simp [merge_nearby_regions], by simp [merge_nearby_regions]⟩
  | cons a rest =>
    obtain ⟨hsh, hst⟩ := List.pairwise_cons.mp hsort
    obtain ⟨ih1, ih2, _⟩ := mergeAux_inv tol m hm rest a
      (hdur a (List.mem_cons_self a rest))
      (fun p hp => hdur p (List.mem_cons_of_mem _ hp)) hst hsh
    exact ⟨ih1, ih2⟩

lemma pad_regions_pairwise {R S : ℚ × ℚ → ℚ × ℚ → Prop} (pad dur : ℚ)
    (l : List (ℚ × ℚ)) (h : List.Pairwise R l)
    (himp : ∀ a b, a ∈ l → b ∈ l → R a b → S (pad_one pad dur a) (pad_one pad dur b)) :
    List.Pairwise S (pad_regions pad dur l) := by
  induction l with
  | nil => simp [pad_regions]
  | cons a t ih =>
    obtain ⟨hsh, hst⟩ := List.pairwise_cons.mp h
    have ih' := ih hst
      (fun x y hx hy => himp x y (List.mem_cons_of_mem _ hx) (List.mem_cons_of_mem _ hy))
    rw [pad_regions]
    split_ifs with hk
    · refine List.pairwise_cons.mpr ⟨?_, ih'⟩
      intro y hy
      obtain ⟨b, hb, hy1, _⟩ := mem_pad_regions.mp hy
      exact hy1 ▸ himp a b (List.mem_cons_self _ _) (List.mem_cons_of_mem _ hb) (hsh b hb)
    · exact ih'

lemma pad_regions_bounds (pad dur : ℚ) (l : List (ℚ × ℚ)) :
    ∀ r' ∈ pad_regions pad dur l, 0 ≤ r'.1 ∧ r'.1 < r'.2 ∧ r'.2 ≤ dur := by
  intro r' hr'
  obtain ⟨r, _, h1, h2⟩ := mem_pad_regions.mp hr'
  subst h1
  exact ⟨le_max_left _ _, h2, min_le_left _ _⟩

lemma lexLE_fst {a b : ℚ × ℚ} (h : lexLE a b) : a.1 ≤ b.1 := by
  unfold lexLE at h
  rcases h with h | ⟨h, _⟩
  · exact le_of_lt h
  · exact le_of_eq h

lemma pairwise_short {R : ℚ × ℚ → ℚ × ℚ → Prop} :
    ∀ (l : List (ℚ × ℚ)), l.length ≤ 1 → List.Pairwise R l
  | [], _ => List.Pairwise.nil
  | [x], _ => by simp
  | _ :: _ :: _, h => by simp at h

lemma merge_close_inv (dur : ℚ) :
    ∀ (rest : List (ℚ × ℚ)) (acc : ℚ × ℚ),
      0 ≤ acc.1 → acc.1 < acc.2 → acc.2 ≤ dur →
      (∀ r ∈ rest, 0 ≤ r.1 ∧ r.1 < r.2 ∧ r.2 ≤ dur) →
      (∀ r ∈ rest, acc.1 ≤ r.1) →
      List.Pairwise (fun a b : ℚ × ℚ => a.1 ≤ b.1) rest →
      (∀ x ∈ merge_close acc rest, 0 ≤ x.1 ∧ x.1 < x.2 ∧ x.2 ≤ dur) ∧
      List.Pairwise (fun a b : ℚ × ℚ => a.2 + 100 < b.1) (merge_close acc rest) ∧
      (∀ x ∈ merge_close acc rest, acc.1 ≤ x.1)
  | [], acc, h0, h1, h2, _, _, _ => by
    refine ⟨?_, by simp [merge_close], ?_⟩
    · intro x hx
      rw [show x = acc from by simpa [merge_close] using hx]
      exact ⟨h0, h1, h2⟩
    · intro x hx
      rw [show x = acc from by simpa [merge_close] using hx]
  | r :: rs, acc, h0, h1, h2, hrest, hstart, hsort => by
    obtain ⟨hsh, hst⟩ := List.pairwise_cons.mp hsort
    obtain ⟨hr0, hr1, hr2⟩ := hrest r (List.mem_cons_self r rs)
    have hs := hstart r (List.mem_cons_self r rs)
    rw [merge_close]
    split_ifs with h
    · obtain ⟨ih1, ih2, ih3⟩ := merge_close_inv dur rs (acc.1, max acc.2 r.2)
        h0 (lt_of_lt_of_le h1 (le_max_left _ _)) (max_le h2 hr2)
        (fun p hp => hrest p (List.mem_cons_of_mem _ hp))
        (fun p hp => le_trans hs (hsh p hp))
        hst
      exact ⟨ih1, ih2, ih3⟩
    · have hg : acc.2 + 100 < r.1 := not_le.mp h
      obtain ⟨ih1, ih2, ih3⟩ := merge_close_inv dur rs r hr0 hr1 hr2
        (fun p hp => hrest p (List.mem_cons_of_mem _ hp)) (fun p hp => hsh p hp) hst
      refine ⟨?_, ?_, ?_⟩
      · intro x hx
        rcases List.mem_cons.mp hx with rfl | hx'
        · exact ⟨h0, h1, h2⟩
        · exact ih1 x hx'
      · refine List.pairwise_cons.mpr ⟨?_, ih2⟩
        intro x hx
        have hx1 := ih3 x hx
        linarith
      · intro x hx
        rcases List.mem_cons.mp hx with rfl | hx'
        · exact le_refl _
        · exact le_trans hs (ih3 x hx')

lemma apply_padding_spec (regions : List (ℚ × ℚ)) (pad dur : ℚ) :
    (∀ r ∈ apply_padding_to_regions regions pad dur true,
        0 ≤ r.1 ∧ r.1 < r.2 ∧ r.2 ≤ dur) ∧
    List.Pairwise (fun a b : ℚ × ℚ => a.1 ≤ b.1)
      (apply_padding_to_regions regions pad dur true) ∧
    List.Pairwise (fun a b : ℚ × ℚ => a.2 + 100 < b.1)
      (apply_padding_to_regions regions pad dur true) := by
  match regions with
  | [] =>
    refine ⟨?_, ?_, ?_⟩ <;> simp [apply_padding_to_regions]
  | q :: qs =>
    have heq : apply_padding_to_regions (q :: qs) pad dur true =
        (if (pad_regions pad dur (q :: qs)).length ≤ 1 then pad_regions pad dur (q :: qs)
         else
           match (pad_regions pad dur (q :: qs)).insertionSort lexLE with
           | [] => []
           | p :: ps => merge_close p ps) := by
      simp only [apply_padding_to_regions]
      by_cases hlen : (pad_regions pad dur (q :: qs)).length ≤ 1
      · rw [if_pos (Or.inr hlen), if_pos hlen]
      · have hneg : ¬(true = false ∨ (pad_regions pad dur (q :: qs)).length ≤ 1) := by
          intro hcon
          rcases hcon with hcon | hcon
          · exact Bool.noConfusion hcon
          · exact hlen hcon
        rw [if_neg hneg, if_neg hlen]
    rw [heq]
    by_cases hlen : (pad_regions pad dur (q :: qs)).length ≤ 1
    · rw [if_pos hlen]
      exact ⟨pad_regions_bounds pad dur (q :: qs), pairwise_short _ hlen, pairwise_short _ hlen⟩
    · rw [if_neg hlen]
      cases hs : (pad_regions pad dur (q :: qs)).insertionSort lexLE with
      | nil =>
        refine ⟨?_, ?_, ?_⟩ <;> simp
      | cons p ps =>
        have hsort0 := List.sorted_insertionSort (r := lexLE) (pad_regions pad dur (q :: qs))
        have hperm0 := List.perm_insertionSort (r := lexLE) (pad_regions pad dur (q :: qs))
        rw [hs] at hsort0 hperm0
        have hmem : ∀ x ∈ p :: ps, 0 ≤ x.1 ∧ x.1 < x.2 ∧ x.2 ≤ dur :=
          fun x hx => pad_regions_bounds pad dur (q :: qs) x (hperm0.subset hx)
        have hpw : List.Pairwise (fun a b : ℚ × ℚ => a.1 ≤ b.1) (p :: ps) :=
          List.Pairwise.imp (fun hab => lexLE_fst hab) hsort0
        obtain ⟨hph, hpt⟩ := List.pairwise_cons.mp hpw
        obtain ⟨hp0, hp1, hp2⟩ := hmem p (List.mem_cons_self p ps)
        obtain ⟨i1, i2, i3⟩ := merge_close_inv dur ps p hp0 hp1 hp2
          (fun x hx => hmem x (List.mem_cons_of_mem _ hx)) hph hpt
        refine ⟨i1, ?_, i2⟩
        exact List.Pairwise.imp_of_mem (fun ha hb hab => by
          obtain ⟨_, ha1, _⟩ := i1 _ ha
          linarith) i2

/-! ## Claim theorems -/

/-- C9: the energy pipeline floors the caller's minimum silence length at
1000 ms (`max(min_silence_len_ms, 1000)`), so every region surviving the
pre-padding stages (detection, 2000 ms merge, 500 ms filter) lasts at least
1000 ms, for any caller-supplied minimum below 1000 ms. -/
theorem c9_min_duration_floor (levels : List (ℚ × ℚ)) (thr minLen : ℚ)
    (hlv : List.Pairwise (fun a b : ℚ × ℚ => a.1 < b.1) levels)
    (_hlen : minLen < 1000) :
    ∀ r ∈ energy_prepad levels thr minLen, 1000 ≤ r.2 - r.1 := by
  intro r hr
  have hm0 : (0 : ℚ) ≤ max minLen 1000 := le_trans (by norm_num) (le_max_right minLen 1000)
  obtain ⟨hdd, hdp⟩ := detect_quiet_regions_spec levels thr (max minLen 1000) hlv
  obtain ⟨hmd, _⟩ := merge_nearby_spec 2000 (max minLen 1000) hm0 _ hdd hdp
  simp only [energy_prepad, filter_short] at hr
  exact le_trans (le_max_right minLen 1000) (hmd r (List.mem_filter.mp hr).1)

/-- C1 (amended), covering both cited pipelines.  Energy pipeline
(`silence_detector_energy.main`): for every loudness profile with strictly
increasing timestamps the final cut list has every interval inside
`[0, duration]` with `end > start` and is sorted ascending by start; the
merge-gap separation (`gap ≥ 2000 ms`, hence non-overlap) is guaranteed when
`padding_ms ≤ 0` — positive padding is applied after the merge and can
re-introduce overlaps (see the counterexample).  Finaliser of
`silence_detector.py` (`apply_padding_to_regions` with `merge_nearby=True`,
as `main` invokes it): for every input region list, duration and signed
padding, the output has every interval inside `[0, duration]` with
`end > start`, is sorted ascending by start, and consecutive intervals are
non-overlapping with gaps strictly greater than its 100 ms merge gap. -/
theorem c1_output_invariants (levels : List (ℚ × ℚ)) (thr minLen pad dur : ℚ)
    (regions : List (ℚ × ℚ)) (pad2 dur2 : ℚ)
    (hlv : List.Pairwise (fun a b : ℚ × ℚ => a.1 < b.1) levels) :
    ((∀ r ∈ energy_main levels thr minLen pad dur, 0 ≤ r.1 ∧ r.1 < r.2 ∧ r.2 ≤ dur) ∧
     List.Pairwise (fun a b : ℚ × ℚ => a.1 ≤ b.1) (energy_main levels thr minLen pad dur) ∧
     (pad ≤ 0 → List.Pairwise (fun a b : ℚ × ℚ => a.2 + 2000 ≤ b.1)
        (energy_main levels thr minLen pad dur))) ∧
    ((∀ r ∈ apply_padding_to_regions regions pad2 dur2 true,
        0 ≤ r.1 ∧ r.1 < r.2 ∧ r.2 ≤ dur2) ∧
     List.Pairwise (fun a b : ℚ × ℚ => a.1 ≤ b.1)
        (apply_padding_to_regions regions pad2 dur2 true) ∧
     List.Pairwise (fun a b : ℚ × ℚ => a.2 + 100 < b.1)
        (apply_padding_to_regions regions pad2 dur2 true)) := by
  refine ⟨?_, apply_padding_spec regions pad2 dur2⟩
  have hm0 : (0 : ℚ) ≤ max minLen 1000 := le_trans (by norm_num) (le_max_right minLen 1000)
  obtain ⟨hdd, hdp⟩ := detect_quiet_regions_spec levels thr (max minLen 1000) hlv
  obtain ⟨hmd, hmp⟩ := merge_nearby_spec 2000 (max minLen 1000) hm0 _ hdd hdp
  have hFp : List.Pairwise (fun a b : ℚ × ℚ => a.2 + 2000 < b.1)
      (energy_prepad levels thr minLen) :=
    List.Pairwise.sublist (List.filter_sublist _) hmp
  have hFd : ∀ r ∈ energy_prepad levels thr minLen, 0 ≤ r.2 - r.1 := by
    intro r hr
    simp only [energy_prepad, filter_short] at hr
    exact le_trans hm0 (hmd r (List.mem_filter.mp hr).1)
  refine ⟨pad_regions_bounds pad dur _, ?_, ?_⟩
  · apply pad_regions_pairwise pad dur _ hFp
    intro a b ha hb hab
    have hda := hFd a ha
    have hdb := hFd b hb
    show max 0 (a.1 - pad) ≤ max 0 (b.1 - pad)
    apply max_le_max (le_refl 0)
    linarith
  · intro hpad
    apply pad_regions_pairwise pad dur _ hFp
    intro a b ha hb hab
    show min dur (a.2 + pad) + 2000 ≤ max 0 (b.1 - pad)
    have h1 : min dur (a.2 + pad) ≤ a.2 + pad := min_le_right _ _
    have h2 : b.1 - pad ≤ max 0 (b.1 - pad) := le_max_right _ _
    linarith

/-- C9 witness: eleven quiet frames and a loud one, `min_silence_len = 500`,
produce the single region `(0, 1100)` of duration 1100 ≥ 1000 ms. -/
theorem c9_witness :
    List.Pairwise (fun a b : ℚ × ℚ => a.1 < b.1) shortLevels ∧ (500 : ℚ) < 1000 ∧
    ((0 : ℚ), (1100 : ℚ)) ∈ energy_prepad shortLevels (-30) 500 ∧
    (1000 : ℚ) ≤ ((0 : ℚ), (1100 : ℚ)).2 - ((0 : ℚ), (1100 : ℚ)).1 := by
  have hp : List.Pairwise (fun a b : ℚ × ℚ => a.1 < b.1) shortLevels := by
    norm_num [shortLevels, List.pairwise_cons]
  have hm : ((0 : ℚ), (1100 : ℚ)) ∈ energy_prepad shortLevels (-30) 500 := by
    norm_num [shortLevels, energy_prepad, detect_quiet_regions, detectScan,
      merge_nearby_regions, mergeAux, filter_short]
  exact ⟨hp, by norm_num, hm,
    c9_min_duration_floor shortLevels (-30) 500 hp (by norm_num) _ hm⟩

/-- C1 witness: the amended invariants hold on the concrete twelve-frame
profile with padding 50 ms and duration 2000 ms, and on the concrete region
list `[(100, 1000), (1090, 1200)]` padded by 100 ms inside a 10000 ms file. -/
theorem c1_witness :
    List.Pairwise (fun a b : ℚ × ℚ => a.1 < b.1) shortLevels ∧
    (((∀ r ∈ energy_main shortLevels (-30) 500 50 2000, 0 ≤ r.1 ∧ r.1 < r.2 ∧ r.2 ≤ 2000) ∧
      List.Pairwise (fun a b : ℚ × ℚ => a.1 ≤ b.1) (energy_main shortLevels (-30) 500 50 2000) ∧
      ((50 : ℚ) ≤ 0 → List.Pairwise (fun a b : ℚ × ℚ => a.2 + 2000 ≤ b.1)
        (energy_main shortLevels (-30) 500 50 2000))) ∧
     ((∀ r ∈ apply_padding_to_regions [((100 : ℚ), 1000), (1090, 1200)] 100 10000 true,
        0 ≤ r.1 ∧ r.1 < r.2 ∧ r.2 ≤ 10000) ∧
      List.Pairwise (fun a b : ℚ × ℚ => a.1 ≤ b.1)
        (apply_padding_to_regions [((100 : ℚ), 1000), (1090, 1200)] 100 10000 true) ∧
      List.Pairwise (fun a b : ℚ × ℚ => a.2 + 100 < b.1)
        (apply_padding_to_regions [((100 : ℚ), 1000), (1090, 1200)] 100 10000 true))) := by
  have hp : List.Pairwise (fun a b : ℚ × ℚ => a.1 < b.1) shortLevels := by
    norm_num [shortLevels, List.pairwise_cons]
  exact ⟨hp,
    c1_output_invariants shortLevels (-30) 500 50 2000 [((100 : ℚ), 1000), (1090, 1200)] 100 10000 hp⟩

set_option maxRecDepth 8000 in
set_option maxHeartbeats 4000000 in
/-- C1 counterexample: a full adaptive run of the energy pipeline (52-frame
profile, base −40 dB, `min_silence_len` 500, padding 2000, duration 10000)
returns `[(0, 3000), (1500, 7100)]` — the second interval starts before the
first one ends, violating the claimed non-overlap/merge-gap invariant. -/
theorem c1_counterexample :
    EnergyAdaptiveRun c1Levels (-40) 500 2000 10000 [((0 : ℚ), 3000), (1500, 7100)] ∧
    ¬ List.Pairwise (fun a b : ℚ × ℚ => a.2 ≤ b.1) [((0 : ℚ), 3000), (1500, 7100)] := by
  constructor
  · refine ⟨30, by norm_num, by norm_num [qvariance, qmean, c1Levels, List.range_succ], ?_⟩
    have ht : resolve_threshold (c1Levels.map Prod.snd) (-40) 30 = -55 := by
      norm_num [resolve_threshold, dynamic_threshold, qmean, c1Levels, List.range_succ]
    rw [ht]
    norm_num [energy_main, energy_prepad, detect_quiet_regions, detectScan,
      merge_nearby_regions, mergeAux, filter_short, pad_regions, pad_one,
      c1Levels, List.range_succ]
  · intro hcon
    have hrel := List.rel_of_pairwise_cons hcon (List.mem_cons_self _ _)
    norm_num at hrel

/-- C2 counterexample: `merge_nearby_regions` applied to the candidate list
`[(0, 10), (2, 4)]` with tolerance 1 merges the second region and takes its
end (giving `[(0, 4)]`), whereas the described pass (sort, merge, end =
`max` of both ends) gives `[(0, 10)]`. -/
theorem c2_counterexample :
    merge_nearby_regions 1 [((0 : ℚ), 10), (2, 4)] ≠
      merge_pass_spec 1 [((0 : ℚ), 10), (2, 4)] := by
  norm_num [merge_nearby_regions, merge_pass_spec, mergeAux, mergeMaxAux,
    List.insertionSort, List.orderedInsert]

/-- C2 (amended): on region lists that are sorted by start with nondecreasing
ends — which is what every call site supplies — `merge_nearby_regions` agrees
with the spec's merge pass (sort by start ascending, merge region `i+1` into
the running region exactly when `start − running.end ≤ tol`, merged end =
`max` of both ends). -/
theorem c2_merge_pass (tol : ℚ) (l : List (ℚ × ℚ))
    (h : List.Pairwise (fun a b => a.1 ≤ b.1 ∧ a.2 ≤ b.2) l) :
    merge_nearby_regions tol l = merge_pass_spec tol l := by
  have hs : List.Sorted (fun a b : ℚ × ℚ => a.1 ≤ b.1) l := h.imp (fun hab => hab.1)
  rw [merge_pass_spec, hs.insertionSort_eq]
  cases l with
  | nil => rfl
  | cons a t =>
    exact mergeAux_eq_max tol t a (fun r hr => List.rel_of_pairwise_cons h hr)
      (List.pairwise_cons.mp h).2

/-- C2 witness: the amended theorem applied to a concrete sorted list. -/
theorem c2_witness :
    List.Pairwise (fun a b : ℚ × ℚ => a.1 ≤ b.1 ∧ a.2 ≤ b.2) [((0 : ℚ), 5), (10, 20)] ∧
    merge_nearby_regions 3 [((0 : ℚ), 5), (10, 20)] =
      merge_pass_spec 3 [((0 : ℚ), 5), (10, 20)] :=
  ⟨by norm_num [List.pairwise_cons],
    c2_merge_pass 3 _ (by norm_num [List.pairwise_cons])⟩

/-- C4: for a non-empty speech-interval list the candidate silence regions of
`cut_silences_with_vad` are exactly the complement gaps of the speech
intervals over `[0, total]` that exceed 100 ms: the gap before the first
interval, the gaps between consecutive intervals, and the gap after the last
interval; gaps of 100 ms or less are never candidates. -/
theorem c4_speech_inversion (speech : List (ℚ × ℚ)) (total : ℚ) (h : speech ≠ []) :
    cut_silence_regions speech total = complement_gaps speech total := by
  match speech with
  | [] => exact absurd rfl h
  | s0 :: rest =>
    rw [cut_silence_regions, complement_gaps]
    have e1 : (if (1 : ℚ)/10 < s0.1 then [((0 : ℚ), s0.1)] else []) =
        List.filter (fun g => decide ((1 : ℚ)/10 < g.2 - g.1)) [((0 : ℚ), s0.1)] := by
      by_cases h1 : (1 : ℚ)/10 < s0.1
      · rw [if_pos h1]
        rw [one_div] at h1
        simp [sub_zero, h1]
      · rw [if_neg h1]
        rw [one_div] at h1
        simp [sub_zero, h1]
    have e3 : (if ((s0 :: rest).getLastD s0).2 < total - 1/10 then
          [(((s0 :: rest).getLastD s0).2, total)] else []) =
        List.filter (fun g => decide ((1 : ℚ)/10 < g.2 - g.1))
          [(((s0 :: rest).getLastD s0).2, total)] := by
      simp only [List.getLastD_eq_getLast?]
      set x := ((s0 :: rest).getLast?.getD s0).2 with hx
      by_cases h2 : x < total - 1/10
      · rw [if_pos h2]
        have hg : (10 : ℚ)⁻¹ < total - x := by
          rw [← one_div]
          linarith
        simp [hg]
      · rw [if_neg h2]
        have hg : ¬((10 : ℚ)⁻¹ < total - x) := by
          rw [← one_div]
          intro hcon
          exact h2 (by linarith)
        simp [hg]
    rw [e1, between_gaps_eq, e3, ← List.filter_append, ← List.filter_append]
    rfl

/-- C4 witness: Scenario C — speech `[[1,3],[4,6]]` over 7 s gives candidates
`[[0,1],[3,4],[6,7]]`. -/
theorem c4_witness :
    ([((1 : ℚ), (3 : ℚ)), (4, 6)] : List (ℚ × ℚ)) ≠ [] ∧
    cut_silence_regions [((1 : ℚ), 3), (4, 6)] 7 = complement_gaps [((1 : ℚ), 3), (4, 6)] 7 ∧
    cut_silence_regions [((1 : ℚ), 3), (4, 6)] 7 = [(0, 1), (3, 4), (6, 7)] :=
  ⟨by simp, c4_speech_inversion _ 7 (by simp),
    by norm_num [cut_silence_regions, between_gaps]⟩

/-- C7: for a fixed frame sequence, threshold and minimum-frame setting,
raising the purity threshold never increases the number of regions emitted by
`group_quiet_regions`. -/
theorem c7_purity_monotone (fs : List (ℚ × ℚ)) (thr : ℚ) (minF : ℕ) (t1 t2 : ℚ)
    (h : t1 ≤ t2) :
    (group_quiet_regions fs thr minF t2).length ≤
      (group_quiet_regions fs thr minF t1).length := by
  obtain ⟨hc, ho⟩ := group_foldl_sim thr minF h fs ⟨none, []⟩ ⟨none, []⟩ rfl (le_refl _)
  exact group_finish_sim minF h _ _ fs.getLast? hc ho

/-- C7 witness: four frames forming one candidate region of purity 2/3 — it
is emitted at purity threshold 1/2 but not at 4/5. -/
theorem c7_witness :
    (1 : ℚ)/2 ≤ 4/5 ∧
    (group_quiet_regions [((0 : ℚ), -60), (20, -60), (40, 0), (60, 0)] (-30) 2 (4/5)).length ≤
      (group_quiet_regions [((0 : ℚ), -60), (20, -60), (40, 0), (60, 0)] (-30) 2 (1/2)).length :=
  ⟨by norm_num, c7_purity_monotone _ _ _ _ _ (by norm_num)⟩

/-- C3: with more than 20 profile levels the adaptive threshold is
`clamp(min(base, mean − 2·std), base − 15, base)` where `std` is the
population standard deviation (characterised by `0 ≤ s` and
`s² = qvariance dbs`); with at most 20 levels the base threshold is used
unchanged. -/
theorem c3_adaptive_threshold (dbs : List ℚ) (base s : ℚ)
    (_h0 : 0 ≤ s) (_h1 : s ^ 2 = qvariance dbs) :
    (20 < dbs.length →
      resolve_threshold dbs base s =
        clampQ (base - 15) base (min base (qmean dbs - 2 * s))) ∧
    (dbs.length ≤ 20 → resolve_threshold dbs base s = base) := by
  constructor
  · intro h
    rw [resolve_threshold, if_pos h, dynamic_threshold, clampQ,
      min_eq_left (min_le_left _ _), max_comm]
  · intro h
    rw [resolve_threshold, if_neg (by omega)]

/-- C3 witness: a constant 21-frame profile has mean −30 and standard
deviation 0, so the adaptive branch applies with `s = 0`. -/
theorem c3_witness :
    (0 : ℚ) ≤ 0 ∧ (0 : ℚ) ^ 2 = qvariance (List.replicate 21 (-30 : ℚ)) ∧
    ((20 < (List.replicate 21 (-30 : ℚ)).length →
      resolve_threshold (List.replicate 21 (-30 : ℚ)) (-40) 0 =
        clampQ ((-40) - 15) (-40)
          (min (-40) (qmean (List.replicate 21 (-30 : ℚ)) - 2 * 0))) ∧
    ((List.replicate 21 (-30 : ℚ)).length ≤ 20 →
      resolve_threshold (List.replicate 21 (-30 : ℚ)) (-40) 0 = -40)) :=
  ⟨le_refl 0, by norm_num [qvariance, qmean, List.replicate],
    c3_adaptive_threshold _ _ _ (le_refl 0)
      (by norm_num [qvariance, qmean, List.replicate])⟩

/-- C5 counterexample: the bit-depth tables of the two cited profilers
disagree at 32-bit (`sample_width = 4`): `audio_analyzer.analyze_audio_levels`
normalises by 128 there, not `2^31`. -/
theorem c5_counterexample :
    aa_max_val 4 = 128 ∧ sd_max_val 4 = 2 ^ 31 ∧ aa_max_val 4 ≠ sd_max_val 4 := by
  decide

/-- C5 (amended): `silence_detector.analyze_audio_levels` emits
`20·log10(rms/max_val)` per window with `max_val` = 128 / 32768 / 2^31 for
8/16/32-bit, and the sentinel −80 exactly when `rms = 0`;
`audio_analyzer.analyze_audio_levels` (and the energy profiler) instead use
32768 for 16-bit and 128 for every other width, including 32-bit. -/
theorem c5_level_formula :
    (∀ (width : ℕ) (frame : List ℚ),
      sd_frame_level width frame =
        if rmsSq frame = 0 then (-80 : ℝ)
        else 20 * Real.logb 10 (Real.sqrt (rmsSq frame : ℝ) / (sd_max_val width : ℝ))) ∧
    sd_max_val 1 = 128 ∧ sd_max_val 2 = 32768 ∧ sd_max_val 4 = 2 ^ 31 ∧
    aa_max_val 1 = 128 ∧ aa_max_val 2 = 32768 ∧ aa_max_val 4 = 128 := by
  refine ⟨?_, rfl, rfl, by decide, rfl, rfl, rfl⟩
  intro width frame
  rw [sd_frame_level]
  rcases eq_or_lt_of_le (rmsSq_nonneg frame) with h | h
  · have hz : ((rmsSq frame : ℚ) : ℝ) = 0 := by exact_mod_cast h.symm
    rw [hz, Real.sqrt_zero, if_neg (lt_irrefl 0), if_pos (by exact_mod_cast h.symm)]
  · have hz : (0 : ℝ) < ((rmsSq frame : ℚ) : ℝ) := by exact_mod_cast h
    rw [if_pos (Real.sqrt_pos.mpr hz), if_neg (by exact_mod_cast h.ne')]

/-- C6 counterexample: for `min_silence_len_ms = 30`, `frame_ms = 20` the code
computes `max(1, int(1.5)) = 1` while the claimed rounding gives
`max(1, round(1.5)) = 2`. -/
theorem c6_counterexample :
    min_region_frames 30 20 = 1 ∧ min_region_frames_spec 30 20 = 2 ∧ (1 : ℤ) ≠ 2 := by
  refine ⟨rfl, ?_, by decide⟩
  norm_num [min_region_frames_spec]
  rw [round_eq]
  norm_num

/-- C6 (amended): the minimum frame count is
`max(1, ⌊min_region_duration_ms / frame_duration_ms⌋)` — the quotient is
truncated (floored), not rounded to the nearest integer. -/
theorem c6_min_frames_floor (minMs frameMs : ℕ) :
    min_region_frames minMs frameMs =
      max 1 (Nat.floor ((minMs : ℚ) / (frameMs : ℚ))) := by
  rw [min_region_frames, Nat.floor_div_nat, Nat.floor_natCast]

/-- C8: the merge pass of `merge_nearby_regions` is idempotent — its output is
a fixed point, for every input region list and every merge gap tolerance. -/
theorem c8_merge_idempotent (tol : ℚ) (l : List (ℚ × ℚ)) :
    merge_nearby_regions tol (merge_nearby_regions tol l) =
      merge_nearby_regions tol l := by
  cases l with
  | nil => rfl
  | cons a rest => exact merge_of_chain tol _ (mergeAux_chain tol rest a)

/-- C10: the padding step maps each region to
`(max(0, start − pad), min(duration, end + pad))` for any signed `pad`,
discards exactly the regions whose padded end is not greater than the padded
start, and therefore emits only intervals with `end > start` inside
`[0, duration]`. -/
theorem c10_padding (pad dur : ℚ) (l : List (ℚ × ℚ)) :
    (∀ r' ∈ pad_regions pad dur l, 0 ≤ r'.1 ∧ r'.1 < r'.2 ∧ r'.2 ≤ dur) ∧
    (∀ r' : ℚ × ℚ, r' ∈ pad_regions pad dur l ↔
      ∃ r ∈ l, r' = (max 0 (r.1 - pad), min dur (r.2 + pad)) ∧
        max 0 (r.1 - pad) < min dur (r.2 + pad)) := by
  constructor
  · intro r' hr'
    obtain ⟨r, _, h1, h2⟩ := mem_pad_regions.mp hr'
    subst h1
    exact ⟨le_max_left _ _, h2, min_le_left _ _⟩
  · intro r'
    exact mem_pad_regions

/-- C10 witness: padding `[(100, 1000)]` by 100 inside a 10000 ms file yields
`(0, 1100)`, which satisfies the bounds. -/
theorem c10_witness :
    ((0 : ℚ), (1100 : ℚ)) ∈ pad_regions 100 10000 [((100 : ℚ), 1000)] ∧
    (0 : ℚ) ≤ 0 ∧ (0 : ℚ) < 1100 ∧ (1100 : ℚ) ≤ 10000 :=
  ⟨by norm_num [pad_regions, pad_one],
    (c10_padding 100 10000 [((100 : ℚ), 1000)]).1 (0, 1100)
      (by norm_num [pad_regions, pad_one])⟩

end CleanCut
